import Mathlib

/-!
# Verification of the `timewarp` hierarchical timer wheel

Shallow embedding of `src/entry.rs`, `src/stack.rs` and `src/wheel.rs`.
Machine integers (the `Tick` type of width `8 * N` bits, `N` the number of
stacks, and the `u8` slot cursor) are modelled as `Nat` with explicit
reduction modulo `2 ^ (8 * N)` (resp. `256`) where the Rust code wraps.
Release-mode (wrapping) semantics are used for `+` and `-` on machine
integers.  Intrusive linked lists (`Queue`) are modelled as Lean lists with
`push` = push-back and `pop` = pop-front.  Fallible steps return `Option`.

`src/bitset.rs` is declared in `lib.rs` but is not part of the provided
sources; the `Bitset` below is modelled from the spec (see its doc comment).
-/

namespace Timewarp

/-- Tick modulus: the number of values of a tick of width `8 * N` bits
(`N` stacks, one byte per stack; `entry.rs` instantiates `N = 4` with `u32`
and `N = 8` with `u64`). -/
def M (N : Nat) : Nat := 2 ^ (8 * N)

/-- Byte `i` (little-endian) of a natural number, as in `to_le_bytes`. -/
def byte (x i : Nat) : Nat := x / 256 ^ i % 256

/-- `Tick::to_le_bytes` at width `N` bytes (`entry.rs`). -/
def toLeBytes (N x : Nat) : List Nat := (List.range N).map (byte x)

/-- `Tick::from_le_bytes` (`entry.rs`): little-endian recomposition. -/
def fromLeBytes (bs : List Nat) : Nat := bs.foldr (fun b acc => b + 256 * acc) 0

/-- `Tick::to_be` on a little-endian target (`entry.rs`): byte swap at
width `N`. -/
def toBe (N x : Nat) : Nat := fromLeBytes ((toLeBytes N x).reverse)

/-- Fuel-indexed binary length: the recursion is structural on the fuel so
that the kernel can evaluate it on concrete inputs. -/
def bitlenAux : Nat → Nat → Nat
  | _, 0 => 0
  | 0, _ + 1 => 1
  | fuel + 1, n + 1 => bitlenAux fuel ((n + 1) / 2) + 1

/-- Number of bits needed to write `x` (0 for 0). -/
def bitlen (x : Nat) : Nat := bitlenAux x x

/-- `Tick::leading_zeros` at width `8 * N` bits (`entry.rs`). -/
def leadingZeros (N x : Nat) : Nat := 8 * N - bitlen x

/-- `Tick::wrapping_add` (`entry.rs`). -/
def wrappingAdd (N a b : Nat) : Nat := (a + b) % M N

/-- Rust release-mode wrapping subtraction at the tick width. -/
def wrappingSub (N a b : Nat) : Nat := (a + (M N - b % M N)) % M N

/-- `Tick::checked_sub` (`entry.rs`). -/
def checkedSub (a b : Nat) : Option Nat := if b ≤ a then some (a - b) else none

/-- `Tick::elapsed_since` (`entry.rs` lines 145-151 / 185-191):
`checked_sub` if it does not underflow, otherwise the code computes
`self + (rhs - Self::MAX)`, with both operations wrapping in release mode.
(`MAX` is `M N - 1`.) -/
def elapsedSince (N a b : Nat) : Nat :=
  match checkedSub a b with
  | some d => d
  | none => wrappingAdd N a (wrappingSub N b (M N - 1))

/-- An entry as the wheel observes it (`entry.rs` trait `Entry`): a delay and
a start tick, both tick values. -/
structure Entry where
  delay : Nat
  startTick : Nat
deriving DecidableEq

/-- `Queue::next_expiring` per-entry probe (`entry.rs` lines 316-328):
`start_tick.checked_add(delay)` if it does not overflow the tick width,
otherwise `delay - start_tick` (wrapping in release mode). -/
def expiryProbe (N : Nat) (e : Entry) : Nat :=
  if e.startTick + e.delay < M N then e.startTick + e.delay
  else wrappingSub N e.delay e.startTick

/-- `Queue::next_expiring` (`entry.rs` lines 316-328): minimum of the
per-entry probes, `0` for the empty queue. -/
def nextExpiring (N : Nat) (q : List Entry) : Nat :=
  ((q.map (expiryProbe N)).min?).getD 0

/-- Pointwise update of a function, modelling in-place mutation of one
array slot. -/
def upd {α : Type} (f : Nat → α) (i : Nat) (v : α) : Nat → α :=
  fun j => if j = i then v else f j

/-- Modelled from the spec: `src/bitset.rs` is declared in `lib.rs` but is
not among the provided sources.  Per §4.1 the bitset is a 256-bit occupancy
set with `insert`, `remove`, `get`, `is_empty` and
`next_occupied(k)` returning the smallest `j > k` with bit `j` set, or
`None`; the semantics are strictly exclusive and there is no wrap.  The
bit array is modelled as a boolean-valued function. -/
structure Bitset where
  get : Nat → Bool

/-- Modelled from the spec: the empty 256-bit set. -/
def Bitset.empty : Bitset := ⟨fun _ => false⟩

/-- Modelled from the spec: set bit `i`. -/
def Bitset.insert (s : Bitset) (i : Nat) : Bitset := ⟨upd s.get i true⟩

/-- Modelled from the spec: clear bit `i`. -/
def Bitset.remove (s : Bitset) (i : Nat) : Bitset := ⟨upd s.get i false⟩

/-- Modelled from the spec: no bit among `0..=255` is set. -/
def Bitset.isEmpty (s : Bitset) : Bool :=
  (List.range 256).all fun j => ! s.get j

/-- Linear scan for the first set bit in `fuel` positions starting at `j`. -/
def Bitset.search (s : Bitset) : Nat → Nat → Option Nat
  | _, 0 => none
  | j, fuel + 1 => if s.get j then some j else s.search (j + 1) fuel

/-- Modelled from the spec (§4.1): smallest `j > k` with bit `j` set, or
`none`; strictly exclusive, no wrap, probing positions `k+1` to `255`. -/
def Bitset.nextOccupied (s : Bitset) (k : Nat) : Option Nat :=
  s.search (k + 1) (255 - k)

/-- One level of the wheel (`stack.rs`): 256 slot queues, the occupancy
bitset, and the `u8` cursor. -/
structure Stack where
  slots : Nat → List Entry
  occupied : Bitset
  current : Nat

/-- `Stack::new` (`stack.rs` lines 54-63). -/
def Stack.new : Stack := ⟨fun _ => [], Bitset.empty, 0⟩

instance : Inhabited Stack := ⟨Stack.new⟩

/-- `Stack::is_empty` (`stack.rs`). -/
def Stack.isEmpty (s : Stack) : Bool := s.occupied.isEmpty

/-- `Stack::insert` (`stack.rs` lines 73-77): mark the slot occupied and
push the entry at the back of the slot's queue. -/
def Stack.insert (s : Stack) (i : Nat) (e : Entry) : Stack :=
  { s with occupied := s.occupied.insert i, slots := upd s.slots i (s.slots i ++ [e]) }

/-- `u8::overflowing_add 1` for a cursor value `< 256`. -/
def overflowingAdd1 (c : Nat) : Nat × Bool := ((c + 1) % 256, decide (c + 1 = 256))

/-- `Stack::next_occupied` (`stack.rs` lines 79-85): wrap the bitset search
result, `(0, true)` when nothing is found. -/
def Stack.nextOccupied (s : Stack) (c : Nat) : Nat × Bool :=
  match s.occupied.nextOccupied c with
  | some n => (n, false)
  | none => (0, true)

/-- `Stack::next_tick` (`stack.rs` lines 94-102): start from
`current.overflowing_add(1)`; when `can_skip`, both components are replaced
by `next_occupied` applied to the already incremented cursor. -/
def Stack.nextTick (s : Stack) (canSkip : Bool) : Nat × Bool :=
  let p := overflowingAdd1 s.current
  if canSkip then s.nextOccupied p.1 else p

/-- `Stack::take` (`stack.rs` lines 104-108): clear the occupancy bit of
the current slot and take its queue, leaving it empty. -/
def Stack.take (s : Stack) : List Entry × Stack :=
  (s.slots s.current,
   { s with occupied := s.occupied.remove s.current, slots := upd s.slots s.current [] })

/-- `Stack::tick` (`stack.rs` lines 87-92): move the cursor per `next_tick`,
then take the new current slot; returns (drained queue, wrapped, stack). -/
def Stack.tick (s : Stack) (canSkip : Bool) : List Entry × Bool × Stack :=
  let p := s.nextTick canSkip
  let s1 := { s with current := p.1 }
  let t := s1.take
  (t.1, p.2, t.2)

/-- The wheel (`wheel.rs`): a list of `N` stacks (`Storage`) and the
pending-wake queue. -/
structure Wheel where
  stackList : List Stack
  pendingWake : List Entry

/-- `Storage::ticks` (`entry.rs` lines 51-91): little-endian concatenation
of the stacks' cursors. -/
def Wheel.ticks (w : Wheel) : Nat := fromLeBytes (w.stackList.map Stack.current)

/-- `Wheel::is_empty` via `Storage::is_empty` (`entry.rs` lines 28-31):
the pending-wake queue is not consulted. -/
def Wheel.isEmpty (w : Wheel) : Bool := w.stackList.all Stack.isEmpty

/-- `Wheel::insert_at` (`wheel.rs` lines 64-90).  Returns whether the entry
was routed to the pending-wake queue, together with the updated wheel. -/
def Wheel.insertAt (w : Wheel) (e : Entry) (now startTick : Nat) : Bool × Wheel :=
  let N := w.stackList.length
  let absoluteTime := wrappingAdd N e.delay startTick
  let zeroTime := toBe N (absoluteTime ^^^ now)
  if zeroTime = 0 then
    (true, { w with pendingWake := w.pendingWake ++ [e] })
  else
    let index := leadingZeros N zeroTime / 8
    let position := (toLeBytes N absoluteTime).getD index 0
    (false, { w with stackList :=
      w.stackList.set index ((w.stackList.getD index Stack.new).insert position e) })

/-- `Wheel::insert` (`wheel.rs` lines 58-62): stamp `start_tick` with the
current ticks, then `insert_at` relative to now. -/
def Wheel.insert (w : Wheel) (e : Entry) : Wheel :=
  let t := w.ticks
  (w.insertAt { e with startTick := t } t t).2

/-- The drain loop inside `Wheel::skip_once` (`wheel.rs` lines 176-189):
re-insert every drained entry at its own `start_tick` relative to the fixed
`now`, accumulating `has_pending`, `can_skip` and `is_empty`. -/
def Wheel.reinsertList : Wheel → List Entry → Nat → Bool → Bool → Bool →
    Wheel × Bool × Bool × Bool
  | w, [], _, hasPending, canSkip, isEmp => (w, hasPending, canSkip, isEmp)
  | w, e :: es, now, hasPending, canSkip, _ =>
    let r := w.insertAt e now e.startTick
    if r.1 then Wheel.reinsertList r.2 es now true canSkip false
    else Wheel.reinsertList r.2 es now hasPending false false

/-- The stack loop of `Wheel::skip_once` (`wheel.rs` lines 166-206) over the
remaining stack indices. -/
def Wheel.skipOnceAux : Wheel → List Nat → Bool → Bool → Bool → Option Bool × Wheel
  | w, [], _, isEmp, hasPending => (if isEmp then none else some hasPending, w)
  | w, index :: rest, canSkip, isEmp, hasPending =>
    let st := w.stackList.getD index Stack.new
    let t := st.tick canSkip
    let w1 := { w with stackList := w.stackList.set index t.2.2 }
    let now := w1.ticks
    let r := Wheel.reinsertList w1 t.1 now hasPending canSkip isEmp
    if !t.2.1 then (some r.2.1, r.1)
    else
      let cs2 := r.2.2.1 && (r.1.stackList.getD index Stack.new).isEmpty
      Wheel.skipOnceAux r.1 rest cs2 (r.2.2.2 && cs2) r.2.1

/-- `Wheel::skip_once` (`wheel.rs` lines 166-206). -/
def Wheel.skipOnce (w : Wheel) : Option Bool × Wheel :=
  Wheel.skipOnceAux w (List.range w.stackList.length) true true false

/-- The `while !self.skip_once()?` loop of `Wheel::skip` (`wheel.rs`
line 156), with explicit fuel; `none` means the fuel ran out. -/
def Wheel.skipLoop : Nat → Wheel → Nat → Option (Option Nat × Wheel)
  | 0, _, _ => none
  | fuel + 1, w, start =>
    let r := w.skipOnce
    match r.1 with
    | none => some (none, r.2)
    | some true =>
      some (some (elapsedSince r.2.stackList.length r.2.ticks start), r.2)
    | some false => Wheel.skipLoop fuel r.2 start

/-- `Wheel::skip` (`wheel.rs` lines 142-164).  The outer `Option` is the
fuel: `none` means the loop bound was exceeded; `some (res, w)` is the
Rust return value together with the updated wheel. -/
def Wheel.skip (fuel : Nat) (w : Wheel) : Option (Option Nat × Wheel) :=
  let start := w.ticks
  if w.pendingWake.isEmpty = false then some (some 0, w)
  else if w.isEmpty then some (none, w)
  else Wheel.skipLoop fuel w start

/-- The byte-assembly loop of `Wheel::next_expiration` (`wheel.rs` lines
101-115): probe each stack's `next_tick(can_skip)` without mutating,
stopping at the first stack that does not wrap; the remaining bytes keep
their `ticks()` values. -/
def Wheel.nextExpBytes : List Stack → List Nat → Bool → List Nat
  | [], bytes, _ => bytes
  | st :: rest, bytes, canSkip =>
    match bytes with
    | [] => []
    | _b :: bs =>
      let p := st.nextTick canSkip
      if !p.2 then p.1 :: bs
      else p.1 :: Wheel.nextExpBytes rest bs (canSkip && st.isEmpty)

/-- `Wheel::next_expiration` (`wheel.rs` lines 92-119). -/
def Wheel.nextExpiration (w : Wheel) : Option Nat :=
  if w.isEmpty then none
  else some (fromLeBytes
    (Wheel.nextExpBytes w.stackList (toLeBytes w.stackList.length w.ticks) true))

/-- `Wheel::next_delta` (`wheel.rs` lines 121-126). -/
def Wheel.nextDelta (w : Wheel) : Option Nat :=
  (w.nextExpiration).map fun next => elapsedSince w.stackList.length next w.ticks

/-- The drain loop of `Wheel::wake` (`wheel.rs` lines 212-217): count the
entries popped from the taken pending queue, in delivery (front-first)
order. -/
def drainAll : List Entry → Nat × List Entry
  | [] => (0, [])
  | e :: es => let r := drainAll es; (r.1 + 1, e :: r.2)

/-- `Wheel::wake` (`wheel.rs` lines 209-220): take the pending-wake queue,
drain it, invoking the callback once per entry.  Returns (count, the
entries handed to the callback in order, updated wheel). -/
def Wheel.wake (w : Wheel) : Nat × List Entry × Wheel :=
  let r := drainAll w.pendingWake
  (r.1, r.2, { w with pendingWake := [] })

/-- A default wheel with four stacks (the `[Stack; 4]` storage of
`entry.rs` line 51, tick type `u32`). -/
def w4def : Wheel := ⟨List.replicate 4 Stack.new, []⟩

/-- A default wheel with eight stacks (the `[Stack; 8]` storage of
`entry.rs` line 70, tick type `u64`). -/
def w8def : Wheel := ⟨List.replicate 8 Stack.new, []⟩

/-- The byte index of the highest (most significant) differing byte of two
tick values, following the words of the spec for the insert index (for
comparison with the code's computation). -/
def highestDiffByteIdx (N a b : Nat) : Nat :=
  (List.range N).foldl (fun acc i => if byte a i ≠ byte b i then i else acc) 0

/-- Concrete four-stack scenario: insert a delay of `2 ^ 32 - 1` ticks into
a default wheel. -/
def cw1 : Wheel := w4def.insert ⟨2 ^ 32 - 1, 0⟩

/-- First skip of the scenario (fuel 50 is ample). -/
def cs1 : Option (Option Nat × Wheel) := cw1.skip 50

/-- Wheel after the first skip. -/
def cw2 : Wheel := (cs1.getD (none, cw1)).2

/-- Wheel after waking the delivered entry. -/
def cw3 : Wheel := (cw2.wake).2.2

/-- Insert a delay of 5 ticks while `ticks() = 2 ^ 32 - 1`. -/
def cw4 : Wheel := cw3.insert ⟨5, 0⟩

/-- Second skip of the scenario: it advances the wheel across the tick
wrap, from `2 ^ 32 - 1` to `4`. -/
def cs2 : Option (Option Nat × Wheel) := cw4.skip 50

/-- Wheel after the second skip. -/
def cw5 : Wheel := (cs2.getD (none, cw4)).2

/-- A stack with cursor 0 whose only occupied slot is 1. -/
def sEx : Stack := Stack.new.insert 1 ⟨1, 0⟩

/-- A default wheel plus one delay-0 entry: the pending-wake queue holds
the entry while every stack is empty. -/
def zw : Wheel := w4def.insert ⟨0, 0⟩

/-- The per-stack occupancy invariant (spec §3): slot `i` is marked
occupied iff its queue is non-empty. -/
def StackInv (s : Stack) : Prop :=
  ∀ i, i < 256 → (s.occupied.get i = true ↔ s.slots i ≠ [])

/-- All cursors are in `u8` range (true of every wheel reachable from a
default wheel, whose stacks are built by `Stack.new`). -/
def CursorsOk (w : Wheel) : Prop := ∀ s ∈ w.stackList, s.current < 256

/-- The return-value behaviour of `Stack::next_tick` forced by the code:
with skipping, the cursor moves to the smallest occupied slot strictly
greater than the already-incremented cursor `(current + 1) % 256`, with
`(0, true)` when no such slot exists; without skipping it is the wrapping
increment together with the u8 overflow flag. -/
def NextTickSpec (s : Stack) : Prop :=
  (∀ j, s.nextTick true = (j, false) ↔
    ((s.current + 1) % 256 < j ∧ j < 256 ∧ s.occupied.get j = true ∧
      ∀ m, (s.current + 1) % 256 < m → m < j → s.occupied.get m = false)) ∧
  (s.nextTick true = (0, true) ↔
    ∀ m, (s.current + 1) % 256 < m → m < 256 → s.occupied.get m = false) ∧
  s.nextTick false = ((s.current + 1) % 256, decide (s.current + 1 = 256))

/-- The routing behaviour of `insert_at` forced by the code: the entry goes
to the pending-wake queue iff the absolute expiry equals `now`; otherwise
it is stored in the stack indexed by the lowest differing byte between the
absolute expiry and `now`, at the slot given by that byte of the absolute
expiry. -/
def InsertAtSpec (w : Wheel) (e : Entry) (now startTick : Nat) : Prop :=
  (wrappingAdd w.stackList.length e.delay startTick = now →
    w.insertAt e now startTick =
      (true, { w with pendingWake := w.pendingWake ++ [e] })) ∧
  (wrappingAdd w.stackList.length e.delay startTick ≠ now →
    ∃ k, k < w.stackList.length ∧
      byte (wrappingAdd w.stackList.length e.delay startTick) k ≠ byte now k ∧
      (∀ i, i < k →
        byte (wrappingAdd w.stackList.length e.delay startTick) i = byte now i) ∧
      w.insertAt e now startTick =
        (false, Wheel.mk
          (w.stackList.set k ((w.stackList.getD k Stack.new).insert
            (byte (wrappingAdd w.stackList.length e.delay startTick) k) e))
          w.pendingWake))
theorem upd_self {α : Type} (f : Nat → α) (i : Nat) (v : α) : upd f i v i = v := by
  simp [upd]

theorem upd_of_ne {α : Type} (f : Nat → α) (i j : Nat) (v : α) (h : j ≠ i) :
    upd f i v j = f j := by
  simp [upd, h]

theorem byte_lt (x i : Nat) : byte x i < 256 := Nat.mod_lt _ (by norm_num)

theorem byte_succ (x i : Nat) : byte x (i + 1) = byte (x / 256) i := by
  unfold byte
  rw [Nat.div_div_eq_div_mul, ← pow_succ']

theorem byte_zero_val (i : Nat) : byte 0 i = 0 := by
  simp [byte]

theorem byte_eq_zero_of_le (x k i : Nat) (hx : x < 256 ^ k) (h : k ≤ i) : byte x i = 0 := by
  unfold byte
  have hxi : x < 256 ^ i := lt_of_lt_of_le hx (Nat.pow_le_pow_right (by norm_num) h)
  simp [Nat.div_eq_of_lt hxi]

theorem toLeBytes_length (N x : Nat) : (toLeBytes N x).length = N := by
  simp [toLeBytes]

theorem toLeBytes_getD (N x i : Nat) (h : i < N) : (toLeBytes N x).getD i 0 = byte x i := by
  simp [toLeBytes, List.getD_eq_getElem?_getD, List.getElem?_map, List.getElem?_range, h]

theorem getD_oor (l : List Nat) (i : Nat) (h : l.length ≤ i) : l.getD i 0 = 0 := by
  rw [List.getD_eq_getElem?_getD, List.getElem?_eq_none h]
  rfl

theorem fromLeBytes_nil : fromLeBytes [] = 0 := rfl

theorem fromLeBytes_cons (b : Nat) (bs : List Nat) :
    fromLeBytes (b :: bs) = b + 256 * fromLeBytes bs := rfl

theorem fromLeBytes_eq_zero_iff (bs : List Nat) :
    fromLeBytes bs = 0 ↔ ∀ b ∈ bs, b = 0 := by
  induction bs with
  | nil => simp [fromLeBytes_nil]
  | cons b tl ih =>
    rw [fromLeBytes_cons]
    simp only [List.mem_cons]
    constructor
    · intro h
      have hb : b = 0 := by omega
      have ht : fromLeBytes tl = 0 := by omega
      intro c hc
      rcases hc with rfl | hc
      · exact hb
      · exact (ih.1 ht) c hc
    · intro h
      have hb : b = 0 := h b (Or.inl rfl)
      have ht : fromLeBytes tl = 0 := ih.2 fun c hc => h c (Or.inr hc)
      omega

theorem fromLeBytes_lt (bs : List Nat) (h : ∀ b ∈ bs, b < 256) :
    fromLeBytes bs < 256 ^ bs.length := by
  induction bs with
  | nil => simp [fromLeBytes_nil]
  | cons b tl ih =>
    rw [fromLeBytes_cons]
    have hb := h b (List.mem_cons_self _ _)
    have ht := ih fun c hc => h c (List.mem_cons_of_mem _ hc)
    simp only [List.length_cons]
    calc b + 256 * fromLeBytes tl < 256 * (fromLeBytes tl + 1) := by omega
      _ ≤ 256 * 256 ^ tl.length := Nat.mul_le_mul_left _ ht
      _ = 256 ^ (tl.length + 1) := (pow_succ' 256 tl.length).symm

theorem fromLeBytes_toLeBytes (N x : Nat) : fromLeBytes (toLeBytes N x) = x % 256 ^ N := by
  induction N generalizing x with
  | zero => simp [toLeBytes, fromLeBytes, Nat.mod_one]
  | succ n ih =>
    have hstep : toLeBytes (n + 1) x = byte x 0 :: toLeBytes n (x / 256) := by
      unfold toLeBytes
      rw [List.range_succ_eq_map, List.map_cons, List.map_map]
      congr 1
      apply List.map_congr_left
      intro i _
      simp [Function.comp, byte_succ]
    rw [hstep, fromLeBytes_cons, ih]
    have h0 : byte x 0 = x % 256 := by simp [byte]
    rw [h0, pow_succ', Nat.mod_mul]

theorem fromLeBytes_of_top : ∀ (bs : List Nat) (j : Nat), (∀ b ∈ bs, b < 256) →
    bs.getD j 0 ≠ 0 → (∀ i, j < i → bs.getD i 0 = 0) →
    256 ^ j ≤ fromLeBytes bs ∧ fromLeBytes bs < 256 ^ (j + 1) := by
  intro bs
  induction bs with
  | nil =>
    intro j _ hj _
    simp [List.getD] at hj
  | cons b tl ih =>
    intro j hb hj hz
    cases j with
    | zero =>
      have hb0 : b ≠ 0 := by simpa using hj
      have htl : fromLeBytes tl = 0 := by
        rw [fromLeBytes_eq_zero_iff]
        intro c hc
        obtain ⟨m, hm, rfl⟩ := List.getElem_of_mem hc
        have hzm := hz (m + 1) (by omega)
        rw [List.getD_cons_succ, List.getD_eq_getElem?_getD,
          List.getElem?_eq_getElem hm] at hzm
        simpa using hzm
      rw [fromLeBytes_cons, htl]
      have := hb b (List.mem_cons_self _ _)
      constructor
      · simpa using Nat.one_le_iff_ne_zero.2 hb0
      · simpa using by omega
    | succ k =>
      have hj' : tl.getD k 0 ≠ 0 := by
        simpa [List.getD_cons_succ] using hj
      have hz' : ∀ i, k < i → tl.getD i 0 = 0 := by
        intro i hi
        have := hz (i + 1) (by omega)
        simpa [List.getD_cons_succ] using this
      obtain ⟨h1, h2⟩ := ih k (fun c hc => hb c (List.mem_cons_of_mem _ hc)) hj' hz'
      rw [fromLeBytes_cons]
      have hblt := hb b (List.mem_cons_self _ _)
      constructor
      · calc 256 ^ (k + 1) = 256 * 256 ^ k := pow_succ' 256 k
          _ ≤ 256 * fromLeBytes tl := Nat.mul_le_mul_left _ h1
          _ ≤ b + 256 * fromLeBytes tl := Nat.le_add_left _ _
      · calc b + 256 * fromLeBytes tl < 256 * (fromLeBytes tl + 1) := by omega
          _ ≤ 256 * 256 ^ (k + 1) := Nat.mul_le_mul_left _ h2
          _ = 256 ^ (k + 1 + 1) := (pow_succ' 256 (k + 1)).symm

theorem rev_getD (l : List Nat) (i : Nat) (h : i < l.length) :
    (l.reverse).getD i 0 = l.getD (l.length - 1 - i) 0 := by
  rw [List.getD_eq_getElem?_getD, List.getD_eq_getElem?_getD]
  rw [List.getElem?_eq_getElem (by simpa using h)]
  rw [List.getElem?_eq_getElem (by omega : l.length - 1 - i < l.length)]
  simp [List.getElem_reverse]

theorem toBe_zero (N : Nat) : toBe N 0 = 0 := by
  unfold toBe
  rw [fromLeBytes_eq_zero_iff]
  intro b hb
  rcases List.mem_reverse.1 hb with hb2
  rcases List.mem_map.1 hb2 with ⟨i, _, rfl⟩
  exact byte_zero_val i

theorem toBe_eq_zero_iff (N x : Nat) (hx : x < 256 ^ N) : toBe N x = 0 ↔ x = 0 := by
  constructor
  · intro h
    have hall : ∀ b ∈ toLeBytes N x, b = 0 := by
      intro b hb
      exact ((fromLeBytes_eq_zero_iff _).1 h) b (List.mem_reverse.2 hb)
    have : fromLeBytes (toLeBytes N x) = 0 := (fromLeBytes_eq_zero_iff _).2 hall
    rw [fromLeBytes_toLeBytes, Nat.mod_eq_of_lt hx] at this
    exact this
  · rintro rfl
    exact toBe_zero N

theorem toBe_bound (N x k : Nat) (hk : k < N) (hbk : byte x k ≠ 0)
    (hlow : ∀ i, i < k → byte x i = 0) :
    256 ^ (N - 1 - k) ≤ toBe N x ∧ toBe N x < 256 ^ (N - 1 - k + 1) := by
  unfold toBe
  apply fromLeBytes_of_top
  · intro b hb
    rcases List.mem_map.1 (List.mem_reverse.1 hb) with ⟨i, _, rfl⟩
    exact byte_lt x i
  · have hlen : (toLeBytes N x).length = N := toLeBytes_length N x
    rw [rev_getD _ _ (by omega), hlen]
    have hkk : N - 1 - (N - 1 - k) = k := by omega
    rw [hkk, toLeBytes_getD N x k hk]
    exact hbk
  · intro i hi
    have hlen : (toLeBytes N x).length = N := toLeBytes_length N x
    by_cases hiN : i < N
    · rw [rev_getD _ _ (by omega), hlen]
      have : N - 1 - i < k := by omega
      rw [toLeBytes_getD N x _ (by omega)]
      exact hlow _ this
    · exact getD_oor _ _ (by simp [hlen]; omega)

theorem pow256_eq (m : Nat) : (256 : Nat) ^ m = 2 ^ (8 * m) := by
  rw [pow_mul]
  norm_num

theorem bitlenAux_eq : ∀ fuel n : Nat, n ≤ fuel → n ≠ 0 →
    bitlenAux fuel n = Nat.log2 n + 1 := by
  intro fuel
  induction fuel with
  | zero =>
    intro n h1 h2
    omega
  | succ f ih =>
    intro n h1 h2
    cases n with
    | zero => exact absurd rfl h2
    | succ m =>
      show bitlenAux f ((m + 1) / 2) + 1 = Nat.log2 (m + 1) + 1
      by_cases hm : m + 1 ≥ 2
      · have hhalf : (m + 1) / 2 ≠ 0 := by omega
        have hle : (m + 1) / 2 ≤ f := by omega
        conv_rhs => rw [Nat.log2, if_pos hm]
        rw [ih _ hle hhalf]
      · have hm1 : m = 0 := by omega
        subst hm1
        show bitlenAux f 0 + 1 = Nat.log2 1 + 1
        have : Nat.log2 1 = 0 := by
          rw [Nat.log2]
          norm_num
        rw [this]
        cases f <;> rfl

theorem bitlen_eq (x : Nat) (h : x ≠ 0) : bitlen x = Nat.log2 x + 1 :=
  bitlenAux_eq x x (Nat.le_refl x) h

theorem bitlen_zero : bitlen 0 = 0 := rfl

theorem leadingZeros_toBe_div8 (N x k : Nat) (hk : k < N) (hbk : byte x k ≠ 0)
    (hlow : ∀ i, i < k → byte x i = 0) :
    leadingZeros N (toBe N x) / 8 = k := by
  obtain ⟨h1, h2⟩ := toBe_bound N x k hk hbk hlow
  have hpos : 0 < toBe N x := lt_of_lt_of_le (Nat.pos_pow_of_pos _ (by norm_num)) h1
  have hne : toBe N x ≠ 0 := Nat.pos_iff_ne_zero.1 hpos
  have hl1 : 8 * (N - 1 - k) ≤ Nat.log2 (toBe N x) := by
    rw [Nat.le_log2 hne, ← pow256_eq]
    exact h1
  have hl2 : Nat.log2 (toBe N x) < 8 * (N - 1 - k + 1) := by
    rw [Nat.log2_lt hne, ← pow256_eq]
    exact h2
  unfold leadingZeros
  rw [bitlen_eq _ hne]
  omega

theorem byte_shift (x i : Nat) : byte x i = (x >>> (8 * i)) % 2 ^ 8 := by
  unfold byte
  rw [Nat.shiftRight_eq_div_pow]
  norm_num [pow_mul]

theorem byte_xor (a b i : Nat) : byte (a ^^^ b) i = byte a i ^^^ byte b i := by
  simp only [byte_shift]
  apply Nat.eq_of_testBit_eq
  intro j
  simp only [Nat.testBit_mod_two_pow, Nat.testBit_shiftRight, Nat.testBit_xor]
  by_cases h : j < 8 <;> simp [h]

theorem exists_least_nonzero_byte (x : Nat) (hx : x ≠ 0) :
    ∃ k, byte x k ≠ 0 ∧ ∀ i, i < k → byte x i = 0 := by
  have hex : ∃ i, byte x i ≠ 0 := by
    by_contra hc
    push_neg at hc
    have hxx : x < 256 ^ x := Nat.lt_pow_self (by norm_num) x
    have h0 : fromLeBytes (toLeBytes x x) = 0 := by
      rw [fromLeBytes_eq_zero_iff]
      intro b hb
      rcases List.mem_map.1 hb with ⟨i, _, rfl⟩
      exact hc i
    rw [fromLeBytes_toLeBytes, Nat.mod_eq_of_lt hxx] at h0
    exact hx h0
  refine ⟨Nat.find hex, Nat.find_spec hex, fun i hi => ?_⟩
  have := Nat.find_min hex hi
  simpa using this

theorem M_pos (N : Nat) : 0 < M N := Nat.pos_pow_of_pos _ (by norm_num)

theorem M_eq_pow256 (N : Nat) : M N = 256 ^ N := by
  unfold M
  rw [pow_mul]
  norm_num

theorem wrappingAdd_lt (N a b : Nat) : wrappingAdd N a b < M N :=
  Nat.mod_lt _ (M_pos N)

theorem insertAt_eq_pending (w : Wheel) (e : Entry) (now st : Nat)
    (h : toBe w.stackList.length (wrappingAdd w.stackList.length e.delay st ^^^ now) = 0) :
    w.insertAt e now st = (true, { w with pendingWake := w.pendingWake ++ [e] }) := by
  simp [Wheel.insertAt, h]

theorem insertAt_eq_stored (w : Wheel) (e : Entry) (now st : Nat)
    (h : toBe w.stackList.length (wrappingAdd w.stackList.length e.delay st ^^^ now) ≠ 0) :
    w.insertAt e now st = (false, Wheel.mk
      (w.stackList.set
        (leadingZeros w.stackList.length
          (toBe w.stackList.length (wrappingAdd w.stackList.length e.delay st ^^^ now)) / 8)
        ((w.stackList.getD
          (leadingZeros w.stackList.length
            (toBe w.stackList.length (wrappingAdd w.stackList.length e.delay st ^^^ now)) / 8)
          Stack.new).insert
          ((toLeBytes w.stackList.length (wrappingAdd w.stackList.length e.delay st)).getD
            (leadingZeros w.stackList.length
              (toBe w.stackList.length
                (wrappingAdd w.stackList.length e.delay st ^^^ now)) / 8) 0)
          e))
      w.pendingWake) := by
  simp [Wheel.insertAt, h]

theorem insertAt_routes (w : Wheel) (e : Entry) (now startTick : Nat)
    (hnow : now < M w.stackList.length) : InsertAtSpec w e now startTick := by
  have hM := M_eq_pow256 w.stackList.length
  have habs : wrappingAdd w.stackList.length e.delay startTick < M w.stackList.length :=
    wrappingAdd_lt _ _ _
  constructor
  · intro heq
    apply insertAt_eq_pending
    rw [heq, Nat.xor_self, toBe_zero]
  · intro hne
    have hxne : wrappingAdd w.stackList.length e.delay startTick ^^^ now ≠ 0 :=
      fun hc => hne (Nat.xor_eq_zero.1 hc)
    have habs2 : wrappingAdd w.stackList.length e.delay startTick <
        2 ^ (8 * w.stackList.length) := habs
    have hnow2 : now < 2 ^ (8 * w.stackList.length) := hnow
    have hxlt : wrappingAdd w.stackList.length e.delay startTick ^^^ now <
        256 ^ w.stackList.length := by
      rw [pow256_eq]
      exact Nat.xor_lt_two_pow habs2 hnow2
    obtain ⟨k, hk1, hk2⟩ := exists_least_nonzero_byte _ hxne
    have hkN : k < w.stackList.length := by
      by_contra hge
      exact hk1 (byte_eq_zero_of_le _ _ _ hxlt (by omega))
    have hidx : leadingZeros w.stackList.length
        (toBe w.stackList.length (wrappingAdd w.stackList.length e.delay startTick ^^^ now)) / 8
        = k :=
      leadingZeros_toBe_div8 _ _ k hkN hk1 hk2
    have hzne : toBe w.stackList.length
        (wrappingAdd w.stackList.length e.delay startTick ^^^ now) ≠ 0 := by
      intro hc
      exact hxne ((toBe_eq_zero_iff _ _ hxlt).1 hc)
    refine ⟨k, hkN, ?_, ?_, ?_⟩
    · intro hc
      apply hk1
      rw [byte_xor, hc]
      exact Nat.xor_self _
    · intro i hi
      have hz := hk2 i hi
      rw [byte_xor] at hz
      exact Nat.xor_eq_zero.1 hz
    · rw [insertAt_eq_stored w e now startTick hzne, hidx,
        toLeBytes_getD _ _ k hkN]
theorem search_eq_some_iff (s : Bitset) :
    ∀ (fuel start j : Nat), s.search start fuel = some j ↔
      (start ≤ j ∧ j < start + fuel ∧ s.get j = true ∧
        ∀ m, start ≤ m → m < j → s.get m = false) := by
  intro fuel
  induction fuel with
  | zero =>
    intro start j
    simp only [Bitset.search]
    constructor
    · intro h
      exact absurd h (by simp)
    · intro ⟨h1, h2, _, _⟩
      omega
  | succ f ih =>
    intro start j
    unfold Bitset.search
    cases hss : s.get start with
    | true =>
      simp only [hss, if_true]
      constructor
      · intro hj
        cases hj
        exact ⟨Nat.le_refl _, by omega, hss, fun m h1 h2 => by omega⟩
      · intro ⟨h1, _, h3, h4⟩
        rcases Nat.eq_or_lt_of_le h1 with rfl | hlt
        · rfl
        · have hf := h4 start (Nat.le_refl _) hlt
          rw [hss] at hf
          exact absurd hf (by simp)
    | false =>
      rw [if_neg (by simp [hss])]
      rw [ih (start + 1) j]
      constructor
      · intro ⟨h1, h2, h3, h4⟩
        refine ⟨by omega, by omega, h3, fun m hm1 hm2 => ?_⟩
        rcases Nat.eq_or_lt_of_le hm1 with rfl | hlt
        · exact hss
        · exact h4 m hlt hm2
      · intro ⟨h1, h2, h3, h4⟩
        have hjs : j ≠ start := by
          intro hc
          rw [hc, hss] at h3
          exact absurd h3 (by simp)
        exact ⟨by omega, by omega, h3, fun m hm1 hm2 => h4 m (by omega) hm2⟩

theorem search_eq_none_iff (s : Bitset) :
    ∀ (fuel start : Nat), s.search start fuel = none ↔
      ∀ m, start ≤ m → m < start + fuel → s.get m = false := by
  intro fuel
  induction fuel with
  | zero =>
    intro start
    simp only [Bitset.search]
    constructor
    · intro _ m h1 h2
      omega
    · intro _
      trivial
  | succ f ih =>
    intro start
    unfold Bitset.search
    cases hss : s.get start with
    | true =>
      simp only [hss, if_true]
      constructor
      · intro hc
        exact absurd hc (by simp)
      · intro hall
        have hf := hall start (Nat.le_refl _) (by omega)
        rw [hss] at hf
        exact absurd hf (by simp)
    | false =>
      rw [if_neg (by simp [hss])]
      rw [ih (start + 1)]
      constructor
      · intro hall m h1 h2
        rcases Nat.eq_or_lt_of_le h1 with rfl | hlt
        · exact hss
        · exact hall m hlt (by omega)
      · intro hall m h1 h2
        exact hall m (by omega) (by omega)

theorem next_tick_characterization (s : Stack) : NextTickSpec s := by
  have hwrap : (s.current + 1) % 256 < 256 := Nat.mod_lt _ (by norm_num)
  have hform : s.nextTick true =
      s.nextOccupied ((s.current + 1) % 256) := rfl
  refine ⟨?_, ?_, ?_⟩
  · intro j
    rw [hform]
    unfold Stack.nextOccupied Bitset.nextOccupied
    cases hsearch : s.occupied.search ((s.current + 1) % 256 + 1)
        (255 - (s.current + 1) % 256) with
    | none =>
      rw [search_eq_none_iff] at hsearch
      constructor
      · intro hc2
        have hf := congrArg Prod.snd hc2
        exact absurd hf (by simp)
      · intro ⟨h1, h2, h3, h4⟩
        have hf := hsearch j (by omega) (by omega)
        rw [h3] at hf
        exact absurd hf (by simp)
    | some n =>
      rw [search_eq_some_iff] at hsearch
      obtain ⟨h1, h2, h3, h4⟩ := hsearch
      constructor
      · intro hc2
        have hn : n = j := by
          have hf := congrArg Prod.fst hc2
          simpa using hf
        subst hn
        exact ⟨by omega, by omega, h3, fun m hm1 hm2 => h4 m (by omega) hm2⟩
      · intro ⟨g1, g2, g3, g4⟩
        have hnj : n = j := by
          rcases Nat.lt_trichotomy n j with hlt | heq | hgt
          · have hf := g4 n (by omega) hlt
            rw [h3] at hf
            exact absurd hf (by simp)
          · exact heq
          · have hf := h4 j (by omega) hgt
            rw [g3] at hf
            exact absurd hf (by simp)
        rw [hnj]
  · rw [hform]
    unfold Stack.nextOccupied Bitset.nextOccupied
    cases hsearch : s.occupied.search ((s.current + 1) % 256 + 1)
        (255 - (s.current + 1) % 256) with
    | none =>
      rw [search_eq_none_iff] at hsearch
      constructor
      · intro _ m hm1 hm2
        exact hsearch m (by omega) (by omega)
      · intro _
        rfl
    | some n =>
      rw [search_eq_some_iff] at hsearch
      obtain ⟨h1, h2, h3, h4⟩ := hsearch
      constructor
      · intro hc2
        have hf := congrArg Prod.snd hc2
        exact absurd hf (by simp)
      · intro hall
        have hf := hall n (by omega) (by omega)
        rw [h3] at hf
        exact absurd hf (by simp)
  · rfl

theorem stackInv_new : StackInv Stack.new := by
  intro i _
  simp [Stack.new, Bitset.empty]

theorem stackInv_insert (s : Stack) (hs : StackInv s) (i : Nat) (e : Entry) :
    StackInv (s.insert i e) := by
  intro j hj
  unfold Stack.insert
  by_cases hji : j = i
  · subst hji
    simp [Bitset.insert, upd_self]
  · simp only [Bitset.insert]
    rw [upd_of_ne s.occupied.get i j true hji, upd_of_ne s.slots i j _ hji]
    exact hs j hj

theorem stackInv_take (s : Stack) (hs : StackInv s) : StackInv (s.take).2 := by
  intro j hj
  unfold Stack.take
  by_cases hji : j = s.current
  · subst hji
    simp [Bitset.remove, upd_self]
  · simp only [Bitset.remove]
    rw [upd_of_ne s.occupied.get s.current j false hji, upd_of_ne s.slots s.current j _ hji]
    exact hs j hj

theorem stackInv_set_current (s : Stack) (c : Nat) (hs : StackInv s) :
    StackInv { s with current := c } := hs

theorem stackInv_tick (s : Stack) (hs : StackInv s) (canSkip : Bool) :
    StackInv (s.tick canSkip).2.2 :=
  stackInv_take _ (stackInv_set_current s _ hs)

theorem foldl_min_spec (l : List Nat) :
    ∀ x : Nat, (l.foldl min x = x ∨ l.foldl min x ∈ l) ∧
      l.foldl min x ≤ x ∧ ∀ b ∈ l, l.foldl min x ≤ b := by
  induction l with
  | nil =>
    intro x
    refine ⟨Or.inl rfl, Nat.le_refl _, ?_⟩
    intro b hb
    exact absurd hb (by simp)
  | cons y tl ih =>
    intro x
    simp only [List.foldl_cons]
    obtain ⟨hmem, hle, hall⟩ := ih (min x y)
    constructor
    · rcases hmem with heq | hmem
      · rw [heq]
        rcases Nat.le_total x y with hxy | hyx
        · left
          rw [Nat.min_eq_left hxy]
        · right
          rw [Nat.min_eq_right hyx]
          exact List.mem_cons_self _ _
      · right
        exact List.mem_cons_of_mem _ hmem
    · constructor
      · exact Nat.le_trans hle (Nat.min_le_left _ _)
      · intro b hb
        rcases List.mem_cons.1 hb with rfl | hb
        · exact Nat.le_trans hle (Nat.min_le_right _ _)
        · exact hall b hb

theorem min?_spec (l : List Nat) (hne : l ≠ []) :
    ∃ a, l.min? = some a ∧ a ∈ l ∧ ∀ b ∈ l, a ≤ b := by
  cases l with
  | nil => exact absurd rfl hne
  | cons x tl =>
    obtain ⟨hmem, hle, hall⟩ := foldl_min_spec tl x
    refine ⟨tl.foldl min x, List.min?_cons', ?_, ?_⟩
    · rcases hmem with heq | hmem
      · rw [heq]
        exact List.mem_cons_self _ _
      · exact List.mem_cons_of_mem _ hmem
    · intro b hb
      rcases List.mem_cons.1 hb with rfl | hb
      · exact hle
      · exact hall b hb

theorem drainAll_spec (l : List Entry) : drainAll l = (l.length, l) := by
  induction l with
  | nil => rfl
  | cons e es ih => simp [drainAll, ih]

theorem ticks_lt (w : Wheel) (hc : CursorsOk w) : w.ticks < M w.stackList.length := by
  rw [M_eq_pow256]
  unfold Wheel.ticks
  have hlen : (w.stackList.map Stack.current).length = w.stackList.length := by
    simp
  rw [← hlen]
  apply fromLeBytes_lt
  intro b hb
  rcases List.mem_map.1 hb with ⟨s, hs, rfl⟩
  exact hc s hs
theorem isEmpty_false_of_ne_nil (l : List Entry) (h : l ≠ []) : l.isEmpty = false := by
  cases l with
  | nil => exact absurd rfl h
  | cons a t => rfl

theorem skip_of_pending (w : Wheel) (h : w.pendingWake ≠ []) (fuel : Nat) :
    w.skip fuel = some (some 0, w) := by
  unfold Wheel.skip
  simp [isEmpty_false_of_ne_nil _ h]

/-- C1 (corrected; counterexample `C1_highest_byte_claim_false`): for every
entry and wheel state with `now` in tick range, `insert_at` routes the
entry to the pending-wake queue iff its absolute expiry (wrapping
`start_tick + delay`) equals `now`; otherwise it stores the entry in the
stack indexed by the LOWEST differing byte between the absolute expiry and
`now` (which is what `leading_zero_bits(byte_swap(absolute XOR now)) / 8`
computes on the little-endian target), at the slot equal to that byte of
the absolute expiry. -/
theorem C1_insert_routing_lowest_byte (w : Wheel) (e : Entry) (now st : Nat)
    (hnow : now < M w.stackList.length) : InsertAtSpec w e now st :=
  insertAt_routes w e now st hnow

/-- Witness for C1: the amended routing theorem applied at the concrete
input (an entry of delay 257 routed into a default four-stack wheel at
`now = 0`). -/
theorem C1_insert_routing_lowest_byte_witness : InsertAtSpec w4def ⟨257, 0⟩ 0 0 :=
  C1_insert_routing_lowest_byte w4def ⟨257, 0⟩ 0 0 (by decide)

set_option maxRecDepth 40000 in
/-- C1 counterexample: for delay 257 inserted at `now = 0` the highest
differing byte between the absolute expiry (257) and `now` is byte 1, yet
the code stores the entry in stack 0 (slot 1): stack 1 stays empty and the
pending queue stays empty, contradicting the claim's "highest differing
byte" routing. -/
theorem C1_highest_byte_claim_false :
    highestDiffByteIdx 4 257 0 = 1 ∧
    ((w4def.insert ⟨257, 0⟩).stackList.getD 1 Stack.new).isEmpty = true ∧
    ((w4def.insert ⟨257, 0⟩).stackList.getD 0 Stack.new).occupied.get 1 = true ∧
    (w4def.insert ⟨257, 0⟩).pendingWake = [] ∧
    ¬ ((w4def.insert ⟨257, 0⟩).stackList.getD (highestDiffByteIdx 4 257 0)
        Stack.new).occupied.get (byte 257 (highestDiffByteIdx 4 257 0)) = true := by
  decide

/-- C2 (code bug): in the wrap branch `elapsed_since` computes
`self + (rhs - Self::MAX)` (entry.rs lines 148-150, 188-190), which is not
the difference wrapped through the tick modulus: at `self = 2`, `rhs = 5`
(u64 width) the code yields 8, while `(self - rhs) mod 2^64 = 2^64 - 3`. -/
theorem C2_elapsed_since_wrap_bug :
    elapsedSince 8 2 5 = 8 ∧ (2 + M 8 - 5) % M 8 = M 8 - 3 ∧
    elapsedSince 8 2 5 ≠ (2 + M 8 - 5) % M 8 := by
  decide

/-- C4: `next_expiring` returns the minimum absolute-expiry probe over the
queue's members and 0 when the queue is empty, where the per-entry probe is
`start_tick + delay` unless the addition overflows the tick width, in which
case `delay - start_tick` is used instead. -/
theorem C4_next_expiring_min (N : Nat) (q : List Entry) :
    (q = [] → nextExpiring N q = 0) ∧
    (q ≠ [] → (∃ e ∈ q, nextExpiring N q = expiryProbe N e) ∧
      ∀ e ∈ q, nextExpiring N q ≤ expiryProbe N e) := by
  constructor
  · rintro rfl
    rfl
  · intro hne
    have hmape : q.map (expiryProbe N) ≠ [] := by
      simpa using hne
    obtain ⟨a, hmin, hmem, hall⟩ := min?_spec _ hmape
    have hv : nextExpiring N q = a := by
      unfold nextExpiring
      rw [hmin]
      rfl
    constructor
    · rcases List.mem_map.1 hmem with ⟨e, he, rfl⟩
      exact ⟨e, he, hv⟩
    · intro e he
      rw [hv]
      exact hall _ (List.mem_map_of_mem _ he)

/-- Witness for C4 at a concrete two-element queue of u64 entries. -/
theorem C4_next_expiring_min_witness :
    (∃ e ∈ [Entry.mk 3 2, Entry.mk 10 1],
      nextExpiring 8 [Entry.mk 3 2, Entry.mk 10 1] = expiryProbe 8 e) ∧
    ∀ e ∈ [Entry.mk 3 2, Entry.mk 10 1],
      nextExpiring 8 [Entry.mk 3 2, Entry.mk 10 1] ≤ expiryProbe 8 e :=
  (C4_next_expiring_min 8 [Entry.mk 3 2, Entry.mk 10 1]).2 (by decide)

/-- C5 (corrected; counterexample `C5_next_tick_claim_false`): for every
stack, `next_tick` does not mutate the stack (it is a pure probe by
construction) and returns: with `can_skip = false`, the wrapping cursor
increment with the u8 overflow flag; with `can_skip = true`, `(j, false)`
where `j` is the smallest occupied slot strictly greater than the
incremented cursor `(current + 1) % 256` (exclusive, per the spec-modelled
bitset), or `(0, true)` when no such slot exists. -/
theorem C5_next_tick_characterization (s : Stack) : NextTickSpec s :=
  next_tick_characterization s

/-- Witness for C5 at the concrete stack `sEx`. -/
theorem C5_next_tick_characterization_witness : NextTickSpec sEx :=
  C5_next_tick_characterization sEx

set_option maxRecDepth 40000 in
/-- C5 counterexample: a stack with cursor 0 whose only occupied slot is 1.
The claim says `next_tick(can_skip = true)` returns `(1, false)` (smallest
occupied slot strictly greater than `current = 0`), but the code applies
`next_occupied` to the incremented cursor and returns `(0, true)`. -/
theorem C5_next_tick_claim_false :
    sEx.current = 0 ∧ sEx.occupied.get 1 = true ∧
    sEx.nextTick true = (0, true) ∧ sEx.nextTick true ≠ (1, false) := by
  decide

/-- C7: the occupancy invariant (bit `i` set iff slot `i` non-empty) holds
for a new stack and is preserved by `insert`, `take` and `tick`. -/
theorem C7_occupancy_invariant :
    StackInv Stack.new ∧
    ∀ s : Stack, StackInv s →
      (∀ i e, StackInv (s.insert i e)) ∧
      StackInv (s.take).2 ∧
      ∀ canSkip, StackInv (s.tick canSkip).2.2 :=
  ⟨stackInv_new, fun s hs =>
    ⟨fun i e => stackInv_insert s hs i e, stackInv_take s hs,
      fun cs => stackInv_tick s hs cs⟩⟩

/-- Witness for C7: the invariant carried from a new stack through an
insert. -/
theorem C7_occupancy_invariant_witness : StackInv (Stack.new.insert 3 ⟨1, 0⟩) :=
  (C7_occupancy_invariant.2 Stack.new C7_occupancy_invariant.1).1 3 ⟨1, 0⟩

/-- C9: `wake` hands the callback exactly the pending-wake entries, once
each in order, returns their count, leaves the pending-wake queue empty and
every stack (hence `ticks()`) unchanged. -/
theorem C9_wake_drains_pending (w : Wheel) :
    (w.wake).2.1 = w.pendingWake ∧
    (w.wake).1 = w.pendingWake.length ∧
    ((w.wake).2.2).pendingWake = [] ∧
    ((w.wake).2.2).stackList = w.stackList ∧
    ((w.wake).2.2).ticks = w.ticks := by
  simp [Wheel.wake, drainAll_spec, Wheel.ticks]

set_option maxRecDepth 40000 in
/-- C10: `is_empty` and `next_expiration` ignore the pending-wake queue:
after inserting one delay-0 entry into a default wheel, `is_empty` is true
and `next_expiration` is `none`, although the entry is pending, `skip`
returns `Some 0` and `wake` delivers one entry. -/
theorem C10_pending_invisible :
    zw.isEmpty = true ∧ zw.nextExpiration = none ∧
    (zw.skip 1).map (fun r => r.1) = some (some 0) ∧
    zw.pendingWake.length = 1 ∧ (zw.wake).1 = 1 := by
  decide

/-- C8: for every wheel with in-range cursors, inserting a delay-0 entry
places it directly in the pending-wake queue (stacks untouched); `skip`
then returns `Some 0` without changing the wheel, on every call, until the
pending queue is drained; and `wake` delivers the entry without any
intervening skip. -/
theorem C8_zero_delay_immediate (w : Wheel) (e : Entry) (hd : e.delay = 0)
    (hc : CursorsOk w) :
    (w.insert e).pendingWake = w.pendingWake ++ [{ e with startTick := w.ticks }] ∧
    (w.insert e).stackList = w.stackList ∧
    (∀ fuel, (w.insert e).skip fuel = some (some 0, w.insert e)) ∧
    ((w.insert e).wake).2.1 = w.pendingWake ++ [{ e with startTick := w.ticks }] ∧
    1 ≤ ((w.insert e).wake).1 := by
  have hticks := ticks_lt w hc
  have habs : wrappingAdd w.stackList.length e.delay w.ticks = w.ticks := by
    unfold wrappingAdd
    rw [hd, Nat.zero_add]
    exact Nat.mod_eq_of_lt hticks
  have hpend := insertAt_eq_pending w { e with startTick := w.ticks } w.ticks w.ticks
    (by rw [show ({ e with startTick := w.ticks } : Entry).delay = e.delay from rfl,
          habs, Nat.xor_self, toBe_zero])
  have hw : w.insert e =
      { w with pendingWake := w.pendingWake ++ [{ e with startTick := w.ticks }] } := by
    unfold Wheel.insert
    simp only [hpend]
  refine ⟨?_, ?_, ?_, ?_, ?_⟩
  · rw [hw]
  · rw [hw]
  · intro fuel
    apply skip_of_pending
    rw [hw]
    simp
  · rw [hw]
    simp [Wheel.wake, drainAll_spec]
  · rw [hw]
    simp [Wheel.wake, drainAll_spec]

/-- Witness for C8: a delay-0 entry inserted into a default four-stack
wheel. -/
theorem C8_zero_delay_immediate_witness :
    (w4def.insert ⟨0, 7⟩).pendingWake =
      w4def.pendingWake ++ [{ (⟨0, 7⟩ : Entry) with startTick := w4def.ticks }] ∧
    (w4def.insert ⟨0, 7⟩).stackList = w4def.stackList ∧
    (∀ fuel, (w4def.insert ⟨0, 7⟩).skip fuel = some (some 0, w4def.insert ⟨0, 7⟩)) ∧
    ((w4def.insert ⟨0, 7⟩).wake).2.1 =
      w4def.pendingWake ++ [{ (⟨0, 7⟩ : Entry) with startTick := w4def.ticks }] ∧
    1 ≤ ((w4def.insert ⟨0, 7⟩).wake).1 :=
  C8_zero_delay_immediate w4def ⟨0, 7⟩ rfl (fun s hs => by
    have hs2 : s = Stack.new := by simpa [w4def] using hs
    subst hs2
    decide)

set_option maxRecDepth 200000 in
/-- C3 (code bug): `skip` stops correctly (Some 0 on pending, None iff
empty) but its return value is `ticks().elapsed_since(start)`, and the
`elapsed_since` wrap branch is wrong: in the concrete run below the wheel
advances 5 ticks (from `2^32 - 1` to 4 across the wrap) yet `skip` returns
`Some 4`, contradicting the claim (and the doc comment of `skip`). -/
theorem C3_skip_return_not_ticks_advanced :
    (cs2.map fun r => r.1) = some (some 4) ∧
    cw4.ticks = 2 ^ 32 - 1 ∧ cw5.ticks = 4 ∧
    (cw5.ticks + M 4 - cw4.ticks) % M 4 = 5 ∧ (4 : Nat) ≠ 5 := by
  decide

set_option maxRecDepth 200000 in
/-- C6 (code bug): tick accounting fails across a wrap because of the
`elapsed_since` slip: in the concrete run the two skips return
`2^32 - 1` and `4`, so their sum is `3 (mod 2^32)`, while `ticks()` is 4
(the true advances were `2^32 - 1` and 5). -/
theorem C6_tick_accounting_violated :
    (cs1.map fun r => r.1) = some (some (2 ^ 32 - 1)) ∧
    (cs2.map fun r => r.1) = some (some 4) ∧
    ((2 ^ 32 - 1) + 4) % M 4 = 3 ∧ cw5.ticks = 4 ∧ (3 : Nat) ≠ 4 := by
  decide

end Timewarp
